import Mathlib

/-!
# Verification of the dialogue-emotion model (`models.py`)

Shallow embedding of the attention modules, the dialogue step cell, the
sequence runner, the bidirectional model, the length-respecting sequence
reversal and the masked NLL loss from `src/models.py`.

Conventions of the embedding:
* a feature vector is a `List ℚ`; a tensor is a nested list, indexed in the
  same axis order as the source (`seq`-major where the source is);
* learned linear layers, GRU cells and dropout are opaque parameters of the
  model: they are embedded as function arguments (`List ℚ → List ℚ` etc.);
  dropout in evaluation mode is the identity, and none of the verified
  properties depends on the concrete functions;
* `exp` (used inside every softmax) and `log`/`tanh` are embedded as function
  parameters; theorems that need it assume the parameter is positive, which
  `Real.exp` satisfies;
* elementwise torch arithmetic is written pointwise over index ranges, which
  is the broadcasting semantics of the source expressions;
* IEEE special values: a division whose denominator is zero produces NaN in
  the source; a computation whose value would be NaN (or a python exception
  such as a missing attribute) is embedded as `none`.
-/

/-- A feature vector (one row of a tensor along its last axis). -/
abbrev Vec : Type := List ℚ

/-- Zero vector of a given width (`torch.zeros(d)`). -/
def zeroV (d : ℕ) : Vec := List.replicate d 0

/-- Scalar entry `m[b][p]` of a 2-d tensor of rationals (out of range ↦ 0). -/
def gQ (m : List (List ℚ)) (b p : ℕ) : ℚ := (m.getD b []).getD p 0

/-- Vector entry `x[b][p]` of a (batch, party, dim) tensor (out of range ↦ []). -/
def gV (x : List (List Vec)) (b p : ℕ) : Vec := (x.getD b []).getD p []

/-- Dot product of two vectors (`torch.bmm` on matching rows). -/
def dotQ (x y : Vec) : ℚ := (List.zipWith (· * ·) x y).sum

/-- Elementwise sum of a list of vectors (empty list ↦ `[]`). -/
def sumVecs : List Vec → Vec
  | [] => []
  | [v] => v
  | v :: t => List.zipWith (· + ·) v (sumVecs t)

/-- Weighted pooling of a history of vectors by a weight list:
`torch.bmm(alpha, M.transpose(0,1))[:, 0, :]` for one batch row. -/
def poolV (alpha : List ℚ) (M : List Vec) : Vec :=
  sumVecs (List.zipWith (fun a v => v.map (fun y => a * y)) alpha M)

/-- Softmax over a list of scores, with `ex` standing for `Real.exp`:
`softmax xs = (exp xsᵢ / Σ exp xsⱼ)ᵢ`. -/
def softmax (ex : ℚ → ℚ) (xs : List ℚ) : List ℚ :=
  xs.map (fun x => ex x / (xs.map ex).sum)

/-- `SimpleAttention` (`models.py` 17-31).  `scalar` is the learned
`nn.Linear(input_dim, 1, bias=False)`; `M` is (seq_len, batch, dim).
`scale = scalar(M)`, `alpha = softmax(scale, dim=0)` — softmax over the time
axis, independently per batch column — and `attn_pool` is the per-row
weighted sum `bmm(alpha, M.transpose(0,1))`.  Output weights are returned
batch-major, one weight list per batch row (the source's
(batch, 1, seq) with the singleton axis dropped). -/
def simpleAttention (scalar : Vec → ℚ) (ex : ℚ → ℚ) (M : List (List Vec)) :
    List Vec × List (List ℚ) :=
  let batch := (M.headD []).length
  let alpha := (List.range batch).map
    (fun b => softmax ex (M.map (fun t => scalar (t.getD b []))))
  let pool := (List.range batch).map
    (fun b => poolV (alpha.getD b []) (M.map (fun t => t.getD b [])))
  (pool, alpha)

/-- Configuration state of a `MatchingAttention` module after `__init__`
(`models.py` 34-50).  `transform` and `vector_prod` model the `nn.Linear`
attributes, present (`some`) exactly when `__init__` creates them. -/
structure MatchAtt where
  mem_dim : ℕ
  cand_dim : ℕ
  att_type : String
  transform : Option (Vec → Vec)
  vector_prod : Option (Vec → ℚ)

/-- `MatchingAttention.__init__` (`models.py` 36-50).  The two `assert`
statements fail (↦ `none`) when `att_type == 'concat'` without `alpha_dim`,
or `att_type == 'dot'` with `mem_dim != cand_dim`.  Otherwise the module is
built; `transform` is created for `'general'`, `'general2'` and `'concat'`
(the `elif` chains off the `general2` test), `vector_prod` only for
`'concat'`.  `tr`/`vp` stand for the freshly initialized linear layers. -/
def matchingAttentionInit (mem cand : ℕ) (alpha_dim : Option ℕ) (att : String)
    (tr : Vec → Vec) (vp : Vec → ℚ) : Option MatchAtt :=
  if att = "concat" ∧ alpha_dim = none then none
  else if att = "dot" ∧ mem ≠ cand then none
  else some
    { mem_dim := mem
      cand_dim := cand
      att_type := att
      transform := if att = "general" ∨ att = "general2" ∨ att = "concat"
                   then some tr else none
      vector_prod := if att = "concat" then some vp else none }

/-- One batch row of `MatchingAttention.forward` (`models.py` 52-88).
`M` is that row's history column (seq_len vectors), `x` its query, `mrow`
its validity-mask row (the default mask is all ones).  All four scoring
branches follow the source; `torch.bmm` row products are `dotQ`, softmax
over the seq axis is `softmax`.  In the `'general2'` branch the source
divides `alpha_masked` by its sum without a guard: a zero sum yields IEEE
NaN, embedded as `none`.  A branch that reads a layer the constructor did
not create (`self.transform` / `self.vector_prod`) raises `AttributeError`
in the source, embedded as `none`. -/
def maForwardRow (A : MatchAtt) (ex th : ℚ → ℚ) (M : List Vec) (x : Vec)
    (mrow : List ℚ) : Option (Vec × List ℚ) :=
  if A.att_type = "dot" then
    let alpha := softmax ex (M.map (fun h => dotQ x h))
    some (poolV alpha M, alpha)
  else if A.att_type = "general" then
    match A.transform with
    | none => none
    | some tr =>
      let alpha := softmax ex (M.map (fun h => dotQ (tr x) h))
      some (poolV alpha M, alpha)
  else if A.att_type = "general2" then
    match A.transform with
    | none => none
    | some tr =>
      let scores := List.zipWith (· * ·) (M.map (fun h => dotQ (tr x) h)) mrow
      let alphaS := softmax ex scores
      let alphaMasked := List.zipWith (· * ·) alphaS mrow
      let alphaSum := alphaMasked.sum
      if alphaSum = 0 then none
      else
        let alpha := alphaMasked.map (fun a => a / alphaSum)
        some (poolV alpha M, alpha)
  else
    match A.transform, A.vector_prod with
    | some tr, some vp =>
      let alpha := softmax ex (M.map (fun h => vp ((tr (h ++ x)).map th)))
      some (poolV alpha M, alpha)
    | _, _ => none

/-- Batch-level `MatchingAttention.forward`: the source's batched `bmm` and
`softmax(dim=2)` act independently on each batch row; row `b` sees history
column `M[:, b, :]`, query `x[b]` and mask row `mask[b]` (all ones when no
mask is passed, `models.py` 58-59). -/
def maForward (A : MatchAtt) (ex th : ℚ → ℚ) (M : List (List Vec))
    (x : List Vec) (mask : Option (List (List ℚ))) :
    List (Option (Vec × List ℚ)) :=
  let mk := match mask with
    | some m => m
    | none => (List.range x.length).map (fun _ => List.replicate M.length (1 : ℚ))
  (List.range x.length).map
    (fun b => maForwardRow A ex th (M.map (fun t => t.getD b []))
      (x.getD b []) (mk.getD b []))

/-- First index attaining the maximum of a list (`torch.argmax` on one row;
ties resolve to the first occurrence).  For the one-hot speaker masks of the
contract this is the index of the unique `1`. -/
def argmaxIdx (l : List ℚ) : ℕ :=
  (List.range l.length).foldl (fun best i => if l.getD best 0 < l.getD i 0 then i else best) 0

/-- `_select_parties` (`models.py` 91-96): row `b` of the result is
`X[b][indices[b]]`. -/
def selectParties (X : List (List Vec)) (indices : List ℕ) : List Vec :=
  List.zipWith (fun idx row => row.getD idx []) indices X

/-- Zero state tensor of shape (batch, party, d). -/
def zeros3 (batch party d : ℕ) : List (List Vec) :=
  (List.range batch).map (fun _ => (List.range party).map (fun _ => zeroV d))

/-- Zero-initialization of a carried state on the first step
(`torch.zeros(...) if s.size()[0] == 0 else s`, `models.py` 140-144). -/
def initState (batch party d : ℕ) (s : List (List Vec)) : List (List Vec) :=
  if s.length = 0 then zeros3 batch party d else s

/-- The masked merge `l*(1-m) + s*m` of one state row against the scalar
speaker-mask entry `m`, broadcast over the feature axis
(`models.py` 174 and 200). -/
def combV (m : ℚ) (l s : Vec) : Vec :=
  List.zipWith (fun a b => a * (1 - m) + b * m) l s

/-- Python/torch indexing with a possibly negative index (`q_hist[:,:,1-p,:]`
for `p ≥ 2` indexes from the end). -/
def pyIdx (n : ℕ) (i : ℤ) : ℕ := (if i < 0 then i + n else i).toNat

/-- Configuration of a `DialogueRNNCell` (`models.py` 101-125): the state
widths, the number of parties, and the learned sub-modules as opaque
functions.  `gCell`/`pCell`/`eCell` are the three `nn.GRUCell`s applied to
one batch row (`(input, hidden) ↦ new hidden`); `drop` is dropout (identity
in evaluation mode); `attnRow` is the context `MatchingAttention` on one
batch row (history column, query) ↦ (pooled, weights), and
`attnP1Row`/`attnP2Row` are the two party attention modules. -/
structure CellParams where
  D_m : ℕ
  D_g : ℕ
  D_p : ℕ
  D_e : ℕ
  party : ℕ
  gCell : Vec → Vec → Vec
  pCell : Vec → Vec → Vec
  eCell : Vec → Vec → Vec
  drop : Vec → Vec
  attnRow : List Vec → Vec → Vec × List ℚ
  attnP1Row : List Vec → Vec → Vec × List ℚ
  attnP2Row : List Vec → Vec → Vec × List ℚ

/-- The part of `DialogueRNNCell.forward` shared by both emotion modes
(`models.py` 144-176): zero-init of `q0`, speaker selection, the global
context update `g_` (previous context `g_hist[-1]`, or zeros when the
incoming history is empty), the append of `g_` to the history, the context
attention — note the source tests `g_hist.shape[0] == 0` only *after* the
append (line 159), so the `alpha = None` arm is unreachable — the parallel
party candidate `qs_` and the masked merge `q_`.  Returns
`(g_, q_, gc_, alpha, qmIdx, q0e)`. -/
def cellCommon (P : CellParams) (U : List Vec) (qmask : List (List ℚ))
    (g_hist : List (List Vec)) (q0 : List (List Vec)) (e0sel : List Vec) :
    List Vec × List (List Vec) × List Vec × Option (List (List ℚ)) × List ℕ × List (List Vec) :=
  let q0e := initState qmask.length P.party P.D_p q0
  let qmIdx := qmask.map argmaxIdx
  let q0sel := selectParties q0e qmIdx
  let gprev := if g_hist.length = 0
    then (List.range U.length).map (fun _ => zeroV P.D_g)
    else g_hist.getLastD []
  let gNew := (List.range U.length).map
    (fun b => P.drop (P.gCell (U.getD b [] ++ q0sel.getD b [] ++ e0sel.getD b [])
      (gprev.getD b [])))
  let gHist2 := g_hist ++ [gNew]
  let gcAlpha :=
    if gHist2.length = 0 then
      ((List.range U.length).map (fun _ => zeroV P.D_g), none)
    else
      let att := (List.range U.length).map
        (fun b => P.attnRow (gHist2.map (fun gt => gt.getD b [])) (U.getD b []))
      (att.map Prod.fst, some (att.map Prod.snd))
  let gc := gcAlpha.1
  let qs := (List.range U.length).map
    (fun b => (List.range P.party).map
      (fun _p => P.drop (P.pCell (U.getD b [] ++ gc.getD b [] ++ e0sel.getD b [])
        (gV q0e b _p))))
  let qNew := (List.range qmask.length).map
    (fun b => (List.range P.party).map
      (fun p => combV (gQ qmask b p) (gV q0e b p) (gV qs b p)))
  (gNew, qNew, gc, gcAlpha.2, qmIdx, q0e)

/-- Output of one step of the cell in party-attention mode: new context row,
new party state, new (per-party) emotion state, the detached active-speaker
emotion output, and the context attention weights. -/
structure CellOutP where
  g : List Vec
  q : List (List Vec)
  e : List (List Vec)
  eout : List Vec
  alpha : Option (List (List ℚ))

/-- Output of one step of the cell in non-party mode (`e` is one global
row per batch item). -/
structure CellOutN where
  g : List Vec
  q : List (List Vec)
  e : List Vec
  eout : List Vec
  alpha : Option (List (List ℚ))

/-- `DialogueRNNCell.forward` with party attention enabled
(`models.py` 127-210, `party_attention` truthy).  After the shared part,
the per-party emotion branch (lines 178-200): `Q`/`Qp` attend for every
party slot `p` over the other (`1-p`, python-negative for `p ≥ 2`) and own
party-state history column of `q_hist` *after* the append of `q_` — the
`q_hist.size()[0] == 0` arm (line 183) is unreachable for the same reason
as the context one; `es_` is the parallel GRU update, and `e_` the masked
merge.  `e_out` is `_select_parties(e_, qm_idx).detach()`; `.detach()`
copies values and only severs gradients, so it is value-level identity
here. -/
def cellParty (P : CellParams) (U : List Vec) (qmask : List (List ℚ))
    (g_hist : List (List Vec)) (q0 : List (List Vec))
    (q_hist : List (List (List Vec))) (e0 : List (List Vec)) : CellOutP :=
  let e0e := initState qmask.length P.party P.D_e e0
  let qmIdx := qmask.map argmaxIdx
  let e0sel := selectParties e0e qmIdx
  let common := cellCommon P U qmask g_hist q0 e0sel
  let gNew := common.1
  let qNew := common.2.1
  let alpha := common.2.2.2.1
  let qHist2 := q_hist ++ [qNew]
  let QQ :=
    if qHist2.length = 0 then
      (zeros3 U.length P.party P.D_p, zeros3 U.length P.party P.D_p)
    else
      ((List.range U.length).map (fun b => (List.range P.party).map
          (fun p => (P.attnP1Row
            (qHist2.map (fun qt => gV qt b (pyIdx P.party (1 - (p : ℤ)))))
            (U.getD b [])).1)),
       (List.range U.length).map (fun b => (List.range P.party).map
          (fun p => (P.attnP2Row (qHist2.map (fun qt => gV qt b p))
            (U.getD b [])).1)))
  let es := (List.range U.length).map
    (fun b => (List.range P.party).map
      (fun p => P.drop (P.eCell (gV QQ.1 b p ++ gV QQ.2 b p ++ gNew.getD b [])
        (gV e0e b p))))
  let eNew := (List.range qmask.length).map
    (fun b => (List.range P.party).map
      (fun p => combV (gQ qmask b p) (gV e0e b p) (gV es b p)))
  { g := gNew, q := qNew, e := eNew
    eout := selectParties eNew qmIdx, alpha := alpha }

/-- `DialogueRNNCell.forward` with party attention disabled
(`models.py` 127-210, `party_attention` `None`): `e0` is one global row per
batch item (zero-initialized at width `D_e` on the first step, line 142),
`e0_sel = e0`, and the emotion update is the single GRU step
`e_cell(_select_parties(q_, qm_idx), e0)` followed by dropout; no masked
merge.  `e_out = e_.detach()` (value-level identity). -/
def cellNoParty (P : CellParams) (U : List Vec) (qmask : List (List ℚ))
    (g_hist : List (List Vec)) (q0 : List (List Vec))
    (_q_hist : List (List (List Vec))) (e0 : List Vec) : CellOutN :=
  let e0e := if e0.length = 0
    then (List.range qmask.length).map (fun _ => zeroV P.D_e) else e0
  let common := cellCommon P U qmask g_hist q0 e0e
  let gNew := common.1
  let qNew := common.2.1
  let alpha := common.2.2.2.1
  let qmIdx := common.2.2.2.2.1
  let qsel := selectParties qNew qmIdx
  let eNew := (List.range qmask.length).map
    (fun b => P.drop (P.eCell (qsel.getD b []) (e0e.getD b [])))
  { g := gNew, q := qNew, e := eNew, eout := eNew, alpha := alpha }

/-- `DialogueRNN.forward`, party-attention mode (`models.py` 229-261),
iterating over the zipped `(U, qmask)` timesteps and carrying the current
`q_`/`e_` states.  The caller-side `g_hist`/`q_hist` variables are *never*
reassigned in the loop (the cell only rebinds its local copies), so every
step receives empty histories — the embedding passes `[]` faithfully.  Per
step it collects `_select_parties(e_, qm_idx)` into `e`, the cell's fourth
output into `c`, and `alpha_[:, 0, :]` when weights are present. -/
def runnerParty (P : CellParams) :
    List (List Vec × List (List ℚ)) → List (List Vec) → List (List Vec) →
    List (List Vec) × List (List Vec) × List (List (List ℚ))
  | [], _, _ => ([], [], [])
  | (u, qm) :: rest, q0, e0 =>
    let r := cellParty P u qm [] q0 [] e0
    let rest_out := runnerParty P rest r.q r.e
    let qmIdx := qm.map argmaxIdx
    (selectParties r.e qmIdx :: rest_out.1, r.eout :: rest_out.2.1,
     match r.alpha with
     | some a => a :: rest_out.2.2
     | none => rest_out.2.2)

/-- `DialogueRNN.forward`, non-party mode: as `runnerParty` but `e_` is
appended whole (`models.py` 255). -/
def runnerNoParty (P : CellParams) :
    List (List Vec × List (List ℚ)) → List (List Vec) → List Vec →
    List (List Vec) × List (List Vec) × List (List (List ℚ))
  | [], _, _ => ([], [], [])
  | (u, qm) :: rest, q0, e0 =>
    let r := cellNoParty P u qm [] q0 [] e0
    let rest_out := runnerNoParty P rest r.q r.e
    (r.e :: rest_out.1, r.eout :: rest_out.2.1,
     match r.alpha with
     | some a => a :: rest_out.2.2
     | none => rest_out.2.2)

/-- `DialogueRNN.forward` (`models.py` 229-261): runs the step cell over the
sequence with all carried states initially empty (`torch.zeros(0)`), and
returns the stacked per-step `e` tensor, the stacked per-step `c` tensor and
the collected attention weights.  `pa` is the `party_attention` argument;
the branch mirrors the source's `is not None` tests (the degenerate
falsy-but-not-`None` empty string is not modeled; no claim reaches it). -/
def dialogueRNN (pa : Option String) (P : CellParams) (U : List (List Vec))
    (qmask : List (List (List ℚ))) :
    List (List Vec) × List (List Vec) × List (List (List ℚ)) :=
  match pa with
  | some _ => runnerParty P (U.zip qmask) [] []
  | none => runnerNoParty P (U.zip qmask) [] []

/-- Length of the longest row (`pad_sequence` pads every sequence to this). -/
def maxLen {α : Type} (l : List (List α)) : ℕ := (l.map List.length).foldr max 0

/-- `torch.nn.utils.rnn.pad_sequence` (batch_first = False): given a list of
(variable-length) rows it returns the seq-major stack, each row padded with
the padding element `d` (zeros of the trailing shape in the source). -/
def padSequence {α : Type} (d : α) (xfs : List (List α)) : List (List α) :=
  (List.range (maxLen xfs)).map (fun t => xfs.map (fun r => r.getD t d))

/-- `X.transpose(0, 1)` on a rectangular seq-major list of rows (`d` is only
read outside the rectangle). -/
def transposeL {α : Type} (d : α) (X : List (List α)) : List (List α) :=
  (List.range (X.headD []).length).map (fun b => X.map (fun row => row.getD b d))

/-- A row's valid length: `torch.sum(mask, 1).int()` truncates the float sum
toward zero (for a 0/1 mask this is the count of ones). -/
def maskCount (row : List ℚ) : ℕ := row.sum.floor.toNat

/-- `_reverse_seq` (`models.py` 264-277): transpose to batch-major, flip the
first `mask_sum[b]` entries of every row (dropping the tail), and re-stack
with `pad_sequence` (seq-major, padded with `d`, the zero element of the
trailing shape). -/
def reverseSeq {α : Type} (d : α) (X : List (List α)) (mask : List (List ℚ)) :
    List (List α) :=
  let Xb := transposeL d X
  let xfs := List.zipWith (fun x c => (x.take c).reverse) Xb (mask.map maskCount)
  padSequence d xfs

/-- The per-row value `weight[target] * (-input[target])` of
`nn.NLLLoss(reduction='sum')`; `w` is the class-weight lookup (constantly 1
when no weights are supplied). -/
def nllTerm (w : ℕ → ℚ) (p : List ℚ) (t : ℕ) : ℚ := w t * (-(p.getD t 0))

/-- `nn.NLLLoss(weight=w, reduction='sum')`: the sum of the per-row terms. -/
def nllLossSum (w : ℕ → ℚ) (pred : List (List ℚ)) (target : List ℕ) : ℚ :=
  (List.zipWith (nllTerm w) pred target).sum

/-- `MaskedNLLLoss.forward` (`models.py` 350-362): `pred` is
(batch*seq_len, n_classes), `target` and the flattened `mask` are
(batch*seq_len).  Every prediction row is scaled by its mask entry
(`pred * mask_`); without class weights the sum-loss is divided by
`torch.sum(mask)`, with weights by `sum(weight[target] * mask_)`. -/
def maskedNLLLoss (weight : Option (List ℚ)) (pred : List (List ℚ))
    (target : List ℕ) (mask : List ℚ) : ℚ :=
  let predM := List.zipWith (fun p m => p.map (fun y => y * m)) pred mask
  match weight with
  | none => nllLossSum (fun _ => 1) predM target / mask.sum
  | some wl =>
      nllLossSum (fun t => wl.getD t 0) predM target /
        (List.zipWith (fun t m => wl.getD t 0 * m) target mask).sum

/-- Elementwise ReLU on a vector. -/
def reluV (v : Vec) : Vec := v.map (fun x => max x 0)

/-- `F.log_softmax` on one class row, with `ex`/`lg` standing for
`Real.exp`/`Real.log`: entry `xᵢ - log (Σ exp xⱼ)`. -/
def logSoftmax (ex lg : ℚ → ℚ) (v : Vec) : Vec :=
  v.map (fun x => x - lg ((v.map ex).sum))

/-- Configuration of `Model` (`models.py` 281-306): the two independently
parameterized `DialogueRNN`s, the `party_attention` mode string, the
classification head layers as opaque functions, the two dropouts, and the
transform of the `general2` self-attention module `matchatt`
(`MatchingAttention(D_e, D_e, att_type='general2')`, line 306). -/
structure ModelParams where
  cpf : CellParams
  cpb : CellParams
  pa : Option String
  trM : Vec → Vec
  ex : ℚ → ℚ
  lg : ℚ → ℚ
  th : ℚ → ℚ
  linear1 : Vec → Vec
  linear2 : Vec → Vec
  smax_fc : Vec → Vec
  dropF : Vec → Vec
  dropR : Vec → Vec

/-- The `matchatt` module built by `Model.__init__`
(`MatchingAttention(D_e, D_e, att_type='general2')`). -/
def modelMatchAtt (P : ModelParams) : MatchAtt :=
  { mem_dim := P.cpf.D_e, cand_dim := P.cpf.D_e, att_type := "general2"
    transform := some P.trM, vector_prod := none }

/-- The classification head of `Model.forward` (`models.py` 332-338) applied
to the chosen per-timestep hidden inputs: `linear1`+ReLU, `linear2`+ReLU,
dropout, `smax_fc`, `log_softmax` over the class axis. -/
def modelHead (P : ModelParams) (inputH : List (List Vec)) : List (List Vec) :=
  let hidden1 := inputH.map (fun tb => tb.map (fun v => reluV (P.linear1 v)))
  let hidden2 := hidden1.map (fun tb => tb.map (fun v => reluV (P.linear2 v)))
  let hidden3 := hidden2.map (fun tb => tb.map P.dropF)
  hidden3.map (fun tb => tb.map (fun v => logSoftmax P.ex P.lg (P.smax_fc v)))

/-- The `att2` attention pass of `Model.forward` (`models.py` 328-331):
for every timestep `t`, `matchatt(emotions, emotions[t], mask=umask)[0]`.
A batch row whose `maForwardRow` is `none` (NaN in the source) is replaced
by a placeholder pair here only to give the list a total type; no verified
property evaluates such a row. -/
def modelAttPass (P : ModelParams) (emotions : List (List Vec))
    (umask : List (List ℚ)) : List (List Vec) :=
  emotions.map (fun t =>
    (maForward (modelMatchAtt P) P.ex P.th emotions t (some umask)).map
      (fun o => (o.getD ([], [])).1))

/-- `Model.forward` (`models.py` 308-339): forward run, length-respecting
reversal of inputs, backward run, re-reversal of the backward emotions,
recurrent dropout on both, concatenation along the feature axis; `c` is the
concatenation of the two runners' *second* outputs (not re-reversed, not
dropped out, line 325).  The extra self-attention pass is taken only when
`att2` *and* `self.party_attention == "simple"` (line 327); otherwise the
raw concatenated vectors feed the head. -/
def modelForward (P : ModelParams) (U : List (List Vec))
    (qmask : List (List (List ℚ))) (umask : List (List ℚ)) (att2 : Bool) :
    List (List Vec) × List (List Vec) :=
  let ef0 := dialogueRNN P.pa P.cpf U qmask
  let ef := ef0.1.map (fun tb => tb.map P.dropR)
  let cf := ef0.2.1
  let revU := reverseSeq (zeroV P.cpf.D_m) U umask
  let revQ := reverseSeq (zeroV P.cpf.party) qmask umask
  let eb0 := dialogueRNN P.pa P.cpb revU revQ
  let ebRev := reverseSeq (zeroV P.cpf.D_e) eb0.1 umask
  let eb := ebRev.map (fun tb => tb.map P.dropR)
  let cb := eb0.2.1
  let emotions := List.zipWith (List.zipWith (· ++ ·)) ef eb
  let c := List.zipWith (List.zipWith (· ++ ·)) cf cb
  let inputH :=
    if att2 ∧ P.pa = some "simple" then modelAttPass P emotions umask
    else emotions
  (modelHead P inputH, c)

/-- Modelled from the spec: `Model.forward` as §4.5 words it — the extra
self-attention pass over the concatenated emotion vectors is applied
whenever the configuration flag `att2` is set, with no further condition on
the party-attention mode.  Identical to `modelForward` except for the
branch condition; used to compare the spec's words with the source. -/
def modelForwardSpecAtt2 (P : ModelParams) (U : List (List Vec))
    (qmask : List (List (List ℚ))) (umask : List (List ℚ)) (att2 : Bool) :
    List (List Vec) × List (List Vec) :=
  let ef0 := dialogueRNN P.pa P.cpf U qmask
  let ef := ef0.1.map (fun tb => tb.map P.dropR)
  let cf := ef0.2.1
  let revU := reverseSeq (zeroV P.cpf.D_m) U umask
  let revQ := reverseSeq (zeroV P.cpf.party) qmask umask
  let eb0 := dialogueRNN P.pa P.cpb revU revQ
  let ebRev := reverseSeq (zeroV P.cpf.D_e) eb0.1 umask
  let eb := ebRev.map (fun tb => tb.map P.dropR)
  let cb := eb0.2.1
  let emotions := List.zipWith (List.zipWith (· ++ ·)) ef eb
  let c := List.zipWith (List.zipWith (· ++ ·)) cf cb
  let inputH := if att2 then modelAttPass P emotions umask else emotions
  (modelHead P inputH, c)

/-- A concrete instantiation of the cell configuration (opaque learned
functions made explicit), used to evaluate the embedding on explicit
inputs.  `D_e = 2` differs from `D_g = 1` so that the two state widths are
distinguishable. -/
def cellParamsA : CellParams where
  D_m := 1
  D_g := 1
  D_p := 1
  D_e := 2
  party := 1
  gCell := fun _ _ => [7]
  pCell := fun _ _ => [3]
  eCell := fun _ _ => [1, 2]
  drop := fun v => v
  attnRow := fun M _ => (M.headD [], M.map (fun _ => 1))
  attnP1Row := fun M _ => (M.headD [], [1])
  attnP2Row := fun M _ => (M.headD [], [1])

/-- A second concrete cell configuration whose emotion output copies the
head of the current global context (hence varies along the sequence). -/
def cellParamsB : CellParams where
  D_m := 1
  D_g := 1
  D_p := 1
  D_e := 1
  party := 2
  gCell := fun inp _ => [inp.headD 0]
  pCell := fun _ _ => [0]
  eCell := fun inp _ => [inp.headD 0]
  drop := fun v => v
  attnRow := fun M _ => (M.headD [], M.map (fun _ => 1))
  attnP1Row := fun _ _ => ([], [])
  attnP2Row := fun _ _ => ([], [])

/-- A concrete `Model` configuration built on `cellParamsB`, with
`party_attention = 'general'` and identity head layers. -/
def modelParamsExample : ModelParams where
  cpf := cellParamsB
  cpb := cellParamsB
  pa := some "general"
  trM := fun v => v
  ex := fun _ => 1
  lg := fun _ => 0
  th := fun y => y
  linear1 := fun v => v
  linear2 := fun v => v
  smax_fc := fun v => v
  dropF := fun v => v
  dropR := fun v => v

/-- A valid one-hot speaker-mask row: exactly one entry is `1`, all others
are `0` (the `sum(qmask) == 1` contract of the data model). -/
def isOneHot (l : List ℚ) : Prop :=
  ∃ j, j < l.length ∧ l.getD j 0 = 1 ∧ ∀ i, i < l.length → i ≠ j → l.getD i 0 = 0

/-! ## General access and softmax lemmas -/

theorem getD_of_lt {α : Type} (l : List α) (i : ℕ) (d : α) (h : i < l.length) :
    l.getD i d = l[i] := by
  simp [List.getD_eq_getElem?_getD, List.getElem?_eq_getElem h]

theorem getD_of_le {α : Type} (l : List α) (i : ℕ) (d : α) (h : l.length ≤ i) :
    l.getD i d = d := by
  simp [List.getD_eq_getElem?_getD, List.getElem?_eq_none h]

theorem range_map_getD {α : Type} (n : ℕ) (f : ℕ → α) (i : ℕ) (d : α)
    (h : i < n) : ((List.range n).map f).getD i d = f i := by
  rw [getD_of_lt _ _ _ (by simpa using h)]
  simp

theorem map_getD_getD {α : Type} (Y : List (List α)) (b s : ℕ) (d : α) :
    (Y.map (fun r => r.getD b d)).getD s d = (Y.getD s []).getD b d := by
  rcases Nat.lt_or_ge s Y.length with h | h
  · rw [getD_of_lt _ _ _ (by simpa using h), getD_of_lt _ _ _ h]
    simp
  · rw [getD_of_le _ _ _ (by simpa using h), getD_of_le _ _ _ h]
    simp

theorem zipWith_getD {α β γ : Type} (f : α → β → γ) (l1 : List α) (l2 : List β)
    (i : ℕ) (d : γ) (d1 : α) (d2 : β) (h1 : i < l1.length) (h2 : i < l2.length) :
    (List.zipWith f l1 l2).getD i d = f (l1.getD i d1) (l2.getD i d2) := by
  rw [getD_of_lt _ _ _ (by simp [List.length_zipWith]; omega),
    getD_of_lt _ _ _ h1, getD_of_lt _ _ _ h2]
  exact List.getElem_zipWith

theorem mem_zipWith_elim {α β γ : Type} (f : α → β → γ) :
    ∀ (l1 : List α) (l2 : List β) (z : γ), z ∈ List.zipWith f l1 l2 →
      ∃ a ∈ l1, ∃ b ∈ l2, z = f a b := by
  intro l1
  induction l1 with
  | nil => intro l2 z h; simp at h
  | cons a t ih =>
    intro l2 z h
    cases l2 with
    | nil => simp at h
    | cons b t2 =>
      rcases List.mem_cons.1 h with h | h
      · exact ⟨a, List.mem_cons_self a t, b, List.mem_cons_self b t2, h⟩
      · obtain ⟨x, hx, y, hy, rfl⟩ := ih t2 z h
        exact ⟨x, List.mem_cons_of_mem a hx, y, List.mem_cons_of_mem b hy, rfl⟩

theorem sum_map_ex_pos {ex : ℚ → ℚ} (hex : ∀ x, 0 < ex x) {xs : List ℚ}
    (h : xs ≠ []) : 0 < (xs.map ex).sum := by
  cases xs with
  | nil => exact absurd rfl h
  | cons a t =>
    have h1 : 0 ≤ (t.map ex).sum := by
      apply List.sum_nonneg
      intro x hx
      obtain ⟨y, _, rfl⟩ := List.mem_map.1 hx
      exact (hex y).le
    simp only [List.map_cons, List.sum_cons]
    linarith [hex a]

theorem sum_map_div (f : ℚ → ℚ) (c : ℚ) (l : List ℚ) :
    (l.map (fun x => f x / c)).sum = (l.map f).sum / c := by
  induction l with
  | nil => simp
  | cons a t ih => simp [ih, add_div]

theorem softmax_length (ex : ℚ → ℚ) (xs : List ℚ) :
    (softmax ex xs).length = xs.length := by
  simp [softmax]

theorem softmax_sum {ex : ℚ → ℚ} (hex : ∀ x, 0 < ex x) {xs : List ℚ}
    (h : xs ≠ []) : (softmax ex xs).sum = 1 := by
  unfold softmax
  rw [sum_map_div]
  exact div_self (ne_of_gt (sum_map_ex_pos hex h))

theorem softmax_pos {ex : ℚ → ℚ} (hex : ∀ x, 0 < ex x) {xs : List ℚ}
    (h : xs ≠ []) : ∀ a ∈ softmax ex xs, 0 < a := by
  intro a ha
  obtain ⟨x, _, rfl⟩ := List.mem_map.1 ha
  exact div_pos (hex x) (sum_map_ex_pos hex h)

theorem map_getD_of_lt {α β : Type} (f : α → β) (l : List α) (i : ℕ) (d : β)
    (d0 : α) (h : i < l.length) : (l.map f).getD i d = f (l.getD i d0) := by
  rw [getD_of_lt _ _ _ (by simpa using h), getD_of_lt _ _ _ h]
  simp

theorem softmax_getD {ex : ℚ → ℚ} (xs : List ℚ) (i : ℕ) (h : i < xs.length) :
    (softmax ex xs).getD i 0 = ex (xs.getD i 0) / (xs.map ex).sum := by
  unfold softmax
  rw [map_getD_of_lt _ _ _ _ 0 h]

theorem foldl_best_mem (l : List ℚ) :
    ∀ (r : List ℕ) (b : ℕ),
      List.foldl (fun best i => if l.getD best 0 < l.getD i 0 then i else best) b r = b ∨
      List.foldl (fun best i => if l.getD best 0 < l.getD i 0 then i else best) b r ∈ r := by
  intro r
  induction r with
  | nil => intro b; left; rfl
  | cons a t ih =>
    intro b
    simp only [List.foldl_cons]
    rcases ih (if l.getD b 0 < l.getD a 0 then a else b) with h | h
    · rw [h]
      by_cases hc : l.getD b 0 < l.getD a 0
      · right
        rw [if_pos hc]
        exact List.mem_cons_self a t
      · left
        rw [if_neg hc]
    · right
      exact List.mem_cons_of_mem a h

theorem argmaxIdx_lt (l : List ℚ) (h : l ≠ []) : argmaxIdx l < l.length := by
  unfold argmaxIdx
  rcases foldl_best_mem l (List.range l.length) 0 with h2 | h2
  · rw [h2]
    exact List.length_pos.2 h
  · exact List.mem_range.1 h2

theorem argmax_range_invariant (l : List ℚ) (j : ℕ) (hj : j < l.length)
    (h1 : l.getD j 0 = 1) (h0 : ∀ i, i < l.length → i ≠ j → l.getD i 0 = 0) :
    ∀ k, k ≤ l.length →
      List.foldl (fun best i => if l.getD best 0 < l.getD i 0 then i else best) 0
        (List.range k) = if j < k then j else 0 := by
  intro k
  induction k with
  | zero => intro _; simp
  | succ k ih =>
    intro hk
    have hkl : k < l.length := hk
    rw [List.range_succ, List.foldl_append, ih (Nat.le_of_succ_le hk)]
    simp only [List.foldl_cons, List.foldl_nil]
    rcases Nat.lt_trichotomy j k with hlt | heq | hgt
    · have e1 : (if j < k then j else 0) = j := if_pos hlt
      rw [e1, h1, h0 k hkl (by omega), if_neg (by norm_num), if_pos (by omega)]
    · subst heq
      have e1 : (if j < j then j else 0) = 0 := if_neg (by omega)
      rw [e1]
      by_cases hj0 : j = 0
      · subst hj0
        rw [h1, if_neg (by norm_num), if_pos (by omega)]
      · rw [h0 0 (by omega) (by omega), h1, if_pos (by norm_num),
          if_pos (by omega)]
    · have e1 : (if j < k then j else 0) = 0 := if_neg (by omega)
      have hj0 : j ≠ 0 := by omega
      rw [e1, h0 k hkl (by omega), h0 0 (by omega) (by omega),
        if_neg (by norm_num), if_neg (by omega)]

theorem argmaxIdx_of_oneHot (l : List ℚ) (j : ℕ) (hj : j < l.length)
    (h1 : l.getD j 0 = 1) (h0 : ∀ i, i < l.length → i ≠ j → l.getD i 0 = 0) :
    argmaxIdx l = j := by
  unfold argmaxIdx
  rw [argmax_range_invariant l j hj h1 h0 l.length le_rfl, if_pos hj]

theorem combV_zero (l s : Vec) (h : l.length ≤ s.length) : combV 0 l s = l := by
  induction l generalizing s with
  | nil => rfl
  | cons a t ih =>
    cases s with
    | nil => simp at h
    | cons b t2 =>
      simp only [combV, List.zipWith_cons_cons]
      have : a * (1 - 0) + b * 0 = a := by ring
      rw [this]
      have ht := ih t2 (by simpa using h)
      simp only [combV] at ht
      rw [ht]

theorem combV_length (m : ℚ) (l s : Vec) :
    (combV m l s).length = min l.length s.length := by
  simp [combV]

theorem zipWith_mul_zero_sum (l1 l2 : List ℚ) (h : ∀ y ∈ l2, y = 0) :
    (List.zipWith (· * ·) l1 l2).sum = 0 := by
  apply List.sum_eq_zero
  intro z hz
  obtain ⟨a, _, b, hb, rfl⟩ := mem_zipWith_elim _ _ _ _ hz
  rw [h b hb, mul_zero]

/-! ## Claim theorems: attention configuration and normalization -/

/-- C4 (counterexample): the claim says an invalid attention-variant string
makes `MatchingAttention.__init__` fail; on the source, construction with
the invalid variant `'simple'` succeeds (`isSome`) and only the first
`forward` call fails (`none`, the source's `AttributeError` on the missing
`self.transform`). -/
theorem c4_counterexample :
    (matchingAttentionInit 2 3 none "simple" (fun v => v) (fun _ => 0)).isSome
      = true ∧
    (matchingAttentionInit 2 3 none "simple" (fun v => v) (fun _ => 0)).bind
      (fun A => maForwardRow A (fun _ => 1) (fun x => x) [[1]] [1] [1])
      = none := by
  constructor
  · rfl
  · rfl

/-- C4 (amended): construction fails exactly for `'concat'` without
`alpha_dim` or `'dot'` with `mem_dim ≠ cand_dim`; an *invalid* variant
string passes construction and every `forward` call on the resulting module
fails instead. -/
theorem c4_config_errors (mem cand : ℕ) (alpha_dim : Option ℕ) (att : String)
    (tr : Vec → Vec) (vp : Vec → ℚ) :
    (matchingAttentionInit mem cand alpha_dim att tr vp = none ↔
      (att = "concat" ∧ alpha_dim = none) ∨ (att = "dot" ∧ mem ≠ cand)) ∧
    (att ≠ "dot" → att ≠ "general" → att ≠ "general2" → att ≠ "concat" →
      ∀ A, matchingAttentionInit mem cand alpha_dim att tr vp = some A →
        ∀ (ex th : ℚ → ℚ) (M : List Vec) (x : Vec) (mrow : List ℚ),
          maForwardRow A ex th M x mrow = none) := by
  constructor
  · unfold matchingAttentionInit
    by_cases h1 : att = "concat" ∧ alpha_dim = none
    · simp [h1]
    · by_cases h2 : att = "dot" ∧ mem ≠ cand
      · simp [h1, h2]
      · simp [h1, h2]
  · intro hd hg hg2 hc A hA ex th M x mrow
    have hAval : A.att_type = att ∧ A.transform = none ∧ A.vector_prod = none := by
      unfold matchingAttentionInit at hA
      rw [if_neg (by tauto), if_neg (by tauto)] at hA
      have hrec := Option.some.inj hA
      subst hrec
      refine ⟨rfl, ?_, ?_⟩
      · simp only [if_neg (show ¬(att = "general" ∨ att = "general2" ∨ att = "concat") by tauto)]
      · simp only [if_neg hc]
    unfold maForwardRow
    rw [hAval.1, if_neg hd, if_neg hg, if_neg hg2, hAval.2.1, hAval.2.2]

/-- C4 (witness): the amended theorem applied at the concrete invalid
variant `'simple'`. -/
theorem c4_config_errors_witness :
    maForwardRow
      { mem_dim := 2, cand_dim := 3, att_type := "simple",
        transform := none, vector_prod := none }
      (fun _ => 1) (fun x => x) [[1]] [1] [1] = none :=
  (c4_config_errors 2 3 none "simple" (fun v => v) (fun _ => 0)).2
    (by decide) (by decide) (by decide) (by decide) _ rfl
    (fun _ => 1) (fun x => x) [[1]] [1] [1]

/-- C6: in the masked-general (`'general2'`) variant, a batch row whose
validity mask is entirely zero makes the unguarded renormalization divide
the masked weights by a zero sum; the row's weights and pooled vector are
undefined (IEEE NaN, embedded as `none`). -/
theorem c6_general2_zero_mask_undefined (A : MatchAtt) (tr : Vec → Vec)
    (ex th : ℚ → ℚ) (M : List Vec) (x : Vec) (mrow : List ℚ)
    (hA : A.att_type = "general2") (htr : A.transform = some tr)
    (hm : ∀ y ∈ mrow, y = 0) :
    maForwardRow A ex th M x mrow = none := by
  unfold maForwardRow
  rw [hA, htr]
  rw [if_neg (by decide), if_neg (by decide), if_pos rfl]
  simp only [zipWith_mul_zero_sum _ _ hm]
  simp

/-- C6 (witness): concrete `general2` module on a one-step history with the
all-zero mask row. -/
theorem c6_general2_zero_mask_witness :
    maForwardRow
      { mem_dim := 1, cand_dim := 1, att_type := "general2",
        transform := some (fun v => v), vector_prod := none }
      (fun _ => 1) (fun x => x) [[1]] [1] [0] = none :=
  c6_general2_zero_mask_undefined _ (fun v => v) _ _ _ _ _ rfl rfl
    (by intro y hy; simpa using hy)

theorem sum_map_div_id (c : ℚ) (l : List ℚ) :
    (l.map (fun x => x / c)).sum = l.sum / c := by
  induction l with
  | nil => simp
  | cons a t ih => simp [ih, add_div]

theorem getD_mem_of_lt {α : Type} (l : List α) (i : ℕ) (d : α)
    (h : i < l.length) : l.getD i d ∈ l := by
  rw [getD_of_lt _ _ _ h]
  exact List.getElem_mem h

theorem maForwardRow_general2 (A : MatchAtt) (tr : Vec → Vec) (ex th : ℚ → ℚ)
    (M : List Vec) (x : Vec) (mrow : List ℚ)
    (hA : A.att_type = "general2") (htr : A.transform = some tr) :
    maForwardRow A ex th M x mrow =
      (if (List.zipWith (· * ·) (softmax ex (List.zipWith (· * ·)
            (M.map (fun h => dotQ (tr x) h)) mrow)) mrow).sum = 0
       then none
       else some
         (poolV ((List.zipWith (· * ·) (softmax ex (List.zipWith (· * ·)
              (M.map (fun h => dotQ (tr x) h)) mrow)) mrow).map
            (fun a => a / (List.zipWith (· * ·) (softmax ex (List.zipWith (· * ·)
              (M.map (fun h => dotQ (tr x) h)) mrow)) mrow).sum)) M,
          (List.zipWith (· * ·) (softmax ex (List.zipWith (· * ·)
              (M.map (fun h => dotQ (tr x) h)) mrow)) mrow).map
            (fun a => a / (List.zipWith (· * ·) (softmax ex (List.zipWith (· * ·)
              (M.map (fun h => dotQ (tr x) h)) mrow)) mrow).sum))) := by
  unfold maForwardRow
  rw [hA, htr]
  rfl

/-- C7: for every valid input (non-empty history; for the masked variant a
0/1 mask row with at least one `1`), the weight vector of `SimpleAttention`
and of every `MatchingAttention` variant is non-negative and sums to 1 over
valid positions; for `'general2'`, weights at invalid positions are zero
(so the full sum and the valid-position sum coincide). -/
theorem c7_attention_weights :
    (∀ (scalar : Vec → ℚ) (ex : ℚ → ℚ) (M : List (List Vec)),
      (∀ y, 0 < ex y) → M ≠ [] →
      ∀ a ∈ (simpleAttention scalar ex M).2, (∀ w ∈ a, 0 ≤ w) ∧ a.sum = 1) ∧
    (∀ (A : MatchAtt) (ex th : ℚ → ℚ) (M : List Vec) (x : Vec) (mrow : List ℚ),
      (∀ y, 0 < ex y) → M ≠ [] →
      (A.att_type = "dot" ∨ (A.att_type = "general" ∧ A.transform.isSome) ∨
        (A.att_type = "concat" ∧ A.transform.isSome ∧ A.vector_prod.isSome)) →
      ∃ p a, maForwardRow A ex th M x mrow = some (p, a) ∧
        (∀ w ∈ a, 0 ≤ w) ∧ a.sum = 1) ∧
    (∀ (A : MatchAtt) (tr : Vec → Vec) (ex th : ℚ → ℚ) (M : List Vec) (x : Vec)
        (mrow : List ℚ),
      (∀ y, 0 < ex y) → A.att_type = "general2" → A.transform = some tr →
      mrow.length = M.length → (∀ y ∈ mrow, y = 0 ∨ y = 1) →
      (∃ i, i < mrow.length ∧ mrow.getD i 0 = 1) →
      ∃ p a, maForwardRow A ex th M x mrow = some (p, a) ∧
        (∀ w ∈ a, 0 ≤ w) ∧ a.sum = 1 ∧
        ∀ k, k < M.length → mrow.getD k 0 = 0 → a.getD k 0 = 0) := by
  refine ⟨?_, ?_, ?_⟩
  · intro scalar ex M hex hM a ha
    simp only [simpleAttention] at ha
    obtain ⟨b, _, rfl⟩ := List.mem_map.1 ha
    have hne : M.map (fun t => scalar (t.getD b [])) ≠ [] := by
      intro hc
      exact hM (List.map_eq_nil_iff.1 hc)
    exact ⟨fun w hw => (softmax_pos hex hne w hw).le, softmax_sum hex hne⟩
  · intro A ex th M x mrow hex hM hvar
    rcases hvar with hd | ⟨hg, htr⟩ | ⟨hc, htr, hvp⟩
    · have hne : M.map (fun h => dotQ x h) ≠ [] := by
        intro hcon
        exact hM (List.map_eq_nil_iff.1 hcon)
      unfold maForwardRow
      rw [if_pos hd]
      exact ⟨_, _, rfl, fun w hw => (softmax_pos hex hne w hw).le,
        softmax_sum hex hne⟩
    · obtain ⟨tr, htr2⟩ := Option.isSome_iff_exists.1 htr
      have hne : M.map (fun h => dotQ (tr x) h) ≠ [] := by
        intro hcon
        exact hM (List.map_eq_nil_iff.1 hcon)
      unfold maForwardRow
      rw [hg, htr2, if_neg (by decide), if_pos rfl]
      exact ⟨_, _, rfl, fun w hw => (softmax_pos hex hne w hw).le,
        softmax_sum hex hne⟩
    · obtain ⟨tr, htr2⟩ := Option.isSome_iff_exists.1 htr
      obtain ⟨vp, hvp2⟩ := Option.isSome_iff_exists.1 hvp
      have hne : M.map (fun h => vp ((tr (h ++ x)).map th)) ≠ [] := by
        intro hcon
        exact hM (List.map_eq_nil_iff.1 hcon)
      unfold maForwardRow
      rw [hc, htr2, hvp2, if_neg (by decide), if_neg (by decide),
        if_neg (by decide)]
      exact ⟨_, _, rfl, fun w hw => (softmax_pos hex hne w hw).le,
        softmax_sum hex hne⟩
  · intro A tr ex th M x mrow hex hA htr hlen hm01 hone
    obtain ⟨i, hi, hi1⟩ := hone
    rw [maForwardRow_general2 A tr ex th M x mrow hA htr]
    have hlens : (List.zipWith (· * ·) (M.map (fun h => dotQ (tr x) h)) mrow).length
        = M.length := by
      simp [List.length_zipWith, hlen]
    have hsne : List.zipWith (· * ·) (M.map (fun h => dotQ (tr x) h)) mrow ≠ [] := by
      intro hcon
      rw [hcon] at hlens
      simp at hlens
      omega
    have halen : (softmax ex (List.zipWith (· * ·)
        (M.map (fun h => dotQ (tr x) h)) mrow)).length = M.length := by
      rw [softmax_length, hlens]
    have hnonneg : ∀ z ∈ List.zipWith (· * ·)
        (softmax ex (List.zipWith (· * ·) (M.map (fun h => dotQ (tr x) h)) mrow))
        mrow, 0 ≤ z := by
      intro z hz
      obtain ⟨a, hasm, b, hbm, rfl⟩ := mem_zipWith_elim _ _ _ _ hz
      have ha := softmax_pos hex hsne a hasm
      rcases hm01 b hbm with h | h
      · rw [h, mul_zero]
      · rw [h, mul_one]
        exact ha.le
    have hpos_i : 0 < (List.zipWith (· * ·)
        (softmax ex (List.zipWith (· * ·) (M.map (fun h => dotQ (tr x) h)) mrow))
        mrow).getD i 0 := by
      rw [zipWith_getD _ _ _ i 0 0 0 (by omega) (by exact hi)]
      rw [hi1, mul_one]
      exact softmax_pos hex hsne _ (getD_mem_of_lt _ _ _ (by omega))
    have hsum_pos : 0 < (List.zipWith (· * ·)
        (softmax ex (List.zipWith (· * ·) (M.map (fun h => dotQ (tr x) h)) mrow))
        mrow).sum := by
      refine lt_of_lt_of_le hpos_i (List.single_le_sum hnonneg _ ?_)
      apply getD_mem_of_lt
      rw [List.length_zipWith, halen]
      omega
    rw [if_neg (ne_of_gt hsum_pos)]
    refine ⟨_, _, rfl, ?_, ?_, ?_⟩
    · intro w hw
      obtain ⟨y, hy, rfl⟩ := List.mem_map.1 hw
      exact div_nonneg (hnonneg y hy) hsum_pos.le
    · rw [sum_map_div_id]
      exact div_self (ne_of_gt hsum_pos)
    · intro k hk hk0
      rw [map_getD_of_lt _ _ _ _ 0 (by rw [List.length_zipWith, halen]; omega)]
      rw [zipWith_getD _ _ _ k 0 0 0 (by rw [halen]; exact hk) (by omega)]
      rw [hk0, mul_zero, zero_div]

/-! ## Sequence-reversal lemmas -/

theorem le_maxLen {α : Type} (l : List (List α)) (r : List α) (h : r ∈ l) :
    r.length ≤ maxLen l := by
  unfold maxLen
  induction l with
  | nil => simp at h
  | cons a tl ih =>
    rcases List.mem_cons.1 h with rfl | h2
    · simp only [List.map_cons, List.foldr_cons]
      exact le_max_left _ _
    · simp only [List.map_cons, List.foldr_cons]
      exact le_trans (ih h2) (le_max_right _ _)

theorem padSequence_length {α : Type} (d : α) (xfs : List (List α)) :
    (padSequence d xfs).length = maxLen xfs := by
  simp [padSequence]

theorem padSequence_getD {α : Type} (d : α) (xfs : List (List α)) (t b : ℕ) :
    ((padSequence d xfs).getD t []).getD b d = (xfs.getD b []).getD t d := by
  unfold padSequence
  rcases Nat.lt_or_ge t (maxLen xfs) with h | h
  · rw [range_map_getD _ _ _ _ h, map_getD_getD]
  · have hlen2 : ((List.range (maxLen xfs)).map
        (fun s => xfs.map (fun r => r.getD s d))).length ≤ t := by simpa using h
    rw [getD_of_le _ _ _ hlen2]
    simp only [List.getD_nil]
    rcases Nat.lt_or_ge b xfs.length with hb | hb
    · rw [getD_of_le (xfs.getD b []) t d
        (le_trans (le_maxLen _ _ (getD_mem_of_lt _ _ _ hb)) h)]
    · rw [getD_of_le xfs b [] hb]
      simp

theorem reverse_take_getD {α : Type} (l : List α) (c t : ℕ) (d : α)
    (ht : t < c) (hc : c ≤ l.length) :
    ((l.take c).reverse).getD t d = l.getD (c - 1 - t) d := by
  have h1 : (l.take c).length = c := by
    simp only [List.length_take]
    omega
  have h2 : t < (l.take c).reverse.length := by
    simp only [List.length_reverse, h1]
    omega
  rw [getD_of_lt _ _ _ h2, getD_of_lt _ _ _ (show c - 1 - t < l.length by omega)]
  rw [List.getElem_reverse _, List.getElem_take _]
  simp only [h1]

theorem reverseSeq_getD {α : Type} (d : α) (X : List (List α))
    (mask : List (List ℚ)) (t b : ℕ) (hb1 : b < (X.headD []).length)
    (hb2 : b < mask.length) :
    ((reverseSeq d X mask).getD t []).getD b d =
      ((((transposeL d X).getD b []).take (maskCount (mask.getD b []))).reverse).getD t d := by
  unfold reverseSeq
  rw [padSequence_getD]
  rw [zipWith_getD _ _ _ b [] [] 0 (by unfold transposeL; simpa using hb1)
    (by simpa using hb2)]
  rw [map_getD_of_lt _ _ _ _ [] hb2]

theorem transposeL_getD_row {α : Type} (d : α) (X : List (List α)) (b : ℕ)
    (hb : b < (X.headD []).length) :
    (transposeL d X).getD b [] = X.map (fun row => row.getD b d) := by
  unfold transposeL
  rw [range_map_getD _ _ _ _ hb]

/-- C8: applying the length-respecting reversal `_reverse_seq` twice with the
same valid-length mask returns the original padded batch sequence at every
valid position of every row (`t < mask_sum[b]`). -/
theorem c8_reverse_seq_involutive {α : Type} (d : α) (X : List (List α))
    (mask : List (List ℚ)) (b t : ℕ)
    (hrect : ∀ row ∈ X, row.length = (X.headD []).length)
    (hmB : mask.length = (X.headD []).length)
    (hb : b < (X.headD []).length)
    (hcle : maskCount (mask.getD b []) ≤ X.length)
    (ht : t < maskCount (mask.getD b [])) :
    ((reverseSeq d (reverseSeq d X mask) mask).getD t []).getD b d =
      (X.getD t []).getD b d := by
  have hb2 : b < mask.length := by omega
  have hc1 : 1 ≤ maskCount (mask.getD b []) := by omega
  have hXbB := transposeL_getD_row d X b hb
  have hXblen : ((transposeL d X).getD b []).length = X.length := by
    rw [hXbB]
    simp
  -- the batch-major row list fed to the inner pad_sequence
  have hxfslen : (List.zipWith (fun x c2 => (x.take c2).reverse) (transposeL d X)
      (mask.map maskCount)).length = min (X.headD []).length mask.length := by
    simp [List.length_zipWith, transposeL]
  have hbxfs : b < (List.zipWith (fun x c2 => (x.take c2).reverse) (transposeL d X)
      (mask.map maskCount)).length := by
    rw [hxfslen]
    omega
  have hxfsb : (List.zipWith (fun x c2 => (x.take c2).reverse) (transposeL d X)
      (mask.map maskCount)).getD b [] =
      (((transposeL d X).getD b []).take (maskCount (mask.getD b []))).reverse := by
    rw [zipWith_getD _ _ _ b [] [] 0 (by unfold transposeL; simpa using hb)
      (by simpa using hb2)]
    rw [map_getD_of_lt _ _ _ _ [] hb2]
  have hxfsblen : ((List.zipWith (fun x c2 => (x.take c2).reverse) (transposeL d X)
      (mask.map maskCount)).getD b []).length = maskCount (mask.getD b []) := by
    rw [hxfsb]
    simp only [List.length_reverse, List.length_take, hXblen]
    omega
  have hcmax : maskCount (mask.getD b []) ≤ maxLen
      (List.zipWith (fun x c2 => (x.take c2).reverse) (transposeL d X)
        (mask.map maskCount)) := by
    rw [← hxfsblen]
    exact le_maxLen _ _ (getD_mem_of_lt _ _ _ hbxfs)
  have hYlen : (reverseSeq d X mask).length = maxLen
      (List.zipWith (fun x c2 => (x.take c2).reverse) (transposeL d X)
        (mask.map maskCount)) := by
    unfold reverseSeq
    exact padSequence_length _ _
  have hYne : (reverseSeq d X mask).headD [] = (reverseSeq d X mask).getD 0 [] := by
    cases reverseSeq d X mask <;> rfl
  have hYhead : ((reverseSeq d X mask).headD []).length =
      (List.zipWith (fun x c2 => (x.take c2).reverse) (transposeL d X)
        (mask.map maskCount)).length := by
    rw [hYne]
    unfold reverseSeq padSequence
    rw [range_map_getD _ _ _ _ (by omega)]
    simp
  have hbY : b < ((reverseSeq d X mask).headD []).length := by
    rw [hYhead, hxfslen]
    omega
  rw [reverseSeq_getD d (reverseSeq d X mask) mask t b hbY hb2]
  rw [transposeL_getD_row d (reverseSeq d X mask) b hbY]
  rw [reverse_take_getD _ _ _ _ ht (by simp only [List.length_map]; omega)]
  rw [map_getD_getD]
  rw [reverseSeq_getD d X mask (maskCount (mask.getD b []) - 1 - t) b hb hb2]
  rw [hXbB]
  rw [reverse_take_getD _ _ _ _ (by omega) (by simp only [List.length_map]; omega)]
  rw [map_getD_getD]
  have hidx : maskCount (mask.getD b []) - 1 -
      (maskCount (mask.getD b []) - 1 - t) = t := by omega
  rw [hidx]

/-- C8 (witness): a concrete 2×2 batch with valid lengths 2 and 1. -/
theorem c8_reverse_seq_witness :
    ((reverseSeq (0 : ℚ) (reverseSeq (0 : ℚ) [[1, 2], [3, 4]] [[1, 1], [1, 0]])
        [[1, 1], [1, 0]]).getD 1 []).getD 0 0 =
      (([[1, 2], [3, 4]] : List (List ℚ)).getD 1 []).getD 0 0 :=
  have h2 : maskCount [1, 1] = 2 := by
    norm_num [maskCount, Rat.floor_def']
    decide
  c8_reverse_seq_involutive 0 [[1, 2], [3, 4]] [[1, 1], [1, 0]] 0 1
    (by decide) (by rfl) (by decide)
    (by show maskCount [1, 1] ≤ 2; rw [h2]) (by show 1 < maskCount [1, 1]; rw [h2]; decide)

/-- C7 (witness): the three parts of the normalization theorem applied at
concrete modules and inputs. -/
theorem c7_attention_weights_witness :
    (∀ a ∈ (simpleAttention (fun _ => 0) (fun _ => 1) [[[1]]]).2,
      (∀ w ∈ a, 0 ≤ w) ∧ a.sum = 1) ∧
    (∃ p a, maForwardRow ⟨1, 1, "dot", none, none⟩ (fun _ => 1) (fun y => y)
        [[1]] [1] [] = some (p, a) ∧ (∀ w ∈ a, 0 ≤ w) ∧ a.sum = 1) ∧
    (∃ p a, maForwardRow ⟨1, 1, "general2", some (fun v => v), none⟩
        (fun _ => 1) (fun y => y) [[1], [2]] [1] [1, 0] = some (p, a) ∧
      (∀ w ∈ a, 0 ≤ w) ∧ a.sum = 1 ∧
      ∀ k, k < 2 → ([(1 : ℚ), 0]).getD k 0 = 0 → a.getD k 0 = 0) :=
  ⟨c7_attention_weights.1 (fun _ => 0) (fun _ => 1) [[[1]]]
      (fun _ => one_pos) (by simp),
   c7_attention_weights.2.1 ⟨1, 1, "dot", none, none⟩ (fun _ => 1) (fun y => y)
      [[1]] [1] [] (fun _ => one_pos) (by simp) (Or.inl rfl),
   c7_attention_weights.2.2 ⟨1, 1, "general2", some (fun v => v), none⟩
      (fun v => v) (fun _ => 1) (fun y => y) [[1], [2]] [1] [1, 0]
      (fun _ => one_pos) rfl rfl (by decide) (by decide)
      ⟨0, by decide, by decide⟩⟩

/-! ## Masked NLL loss -/

theorem map_mul_zero_getD (l : List ℚ) (t : ℕ) :
    (l.map (fun y => y * (0 : ℚ))).getD t 0 = 0 := by
  rcases Nat.lt_or_ge t l.length with h | h
  · rw [map_getD_of_lt _ _ _ _ 0 h, mul_zero]
  · rw [getD_of_le _ _ _ (by simpa using h)]

theorem maskedNLL_numerator_eq (w : ℕ → ℚ) :
    ∀ (p1 p2 : List (List ℚ)) (mask : List ℚ) (target : List ℕ),
      p1.length = p2.length →
      (∀ i, mask.getD i 0 = 1 → p1.getD i [] = p2.getD i []) →
      (∀ m ∈ mask, m = 0 ∨ m = 1) →
      List.zipWith (nllTerm w)
        (List.zipWith (fun p m => p.map (fun y => y * m)) p1 mask) target =
      List.zipWith (nllTerm w)
        (List.zipWith (fun p m => p.map (fun y => y * m)) p2 mask) target := by
  intro p1
  induction p1 with
  | nil =>
    intro p2 mask target hlen _ _
    cases p2 with
    | nil => rfl
    | cons b t2 => simp at hlen
  | cons a t ih =>
    intro p2 mask target hlen hagree h01
    cases p2 with
    | nil => simp at hlen
    | cons b t2 =>
      cases mask with
      | nil => rfl
      | cons m mt =>
        cases target with
        | nil => rfl
        | cons tg tt =>
          simp only [List.zipWith_cons_cons]
          congr 1
          · rcases h01 m (List.mem_cons_self _ _) with hm | hm
            · subst hm
              unfold nllTerm
              rw [map_mul_zero_getD, map_mul_zero_getD]
            · subst hm
              have hab : a = b := by
                have := hagree 0 (by simp)
                simpa using this
              rw [hab]
          · refine ih t2 mt tt (by simpa using hlen) ?_
              (fun x hx => h01 x (List.mem_cons_of_mem _ hx))
            intro i hi
            have := hagree (i + 1) (by simpa using hi)
            simpa using this

/-- C9: the masked NLL loss depends only on predictions at positions whose
mask entry is 1 — two prediction tensors agreeing on all valid positions
(same targets, 0/1 mask, optional class weights) give the same loss, in
both the unweighted and the class-weighted case, because masked-out rows
contribute to neither the numerator nor the denominator. -/
theorem c9_maskedNLL_mask_invariant (weight : Option (List ℚ))
    (p1 p2 : List (List ℚ)) (target : List ℕ) (mask : List ℚ)
    (hlen : p1.length = p2.length)
    (h01 : ∀ m ∈ mask, m = 0 ∨ m = 1)
    (hagree : ∀ i, mask.getD i 0 = 1 → p1.getD i [] = p2.getD i []) :
    maskedNLLLoss weight p1 target mask = maskedNLLLoss weight p2 target mask := by
  cases weight with
  | none =>
    simp only [maskedNLLLoss, nllLossSum]
    rw [maskedNLL_numerator_eq (fun _ => 1) p1 p2 mask target hlen hagree h01]
  | some wl =>
    simp only [maskedNLLLoss, nllLossSum]
    rw [maskedNLL_numerator_eq (fun t => wl.getD t 0) p1 p2 mask target hlen
      hagree h01]

/-- C9 (witness): two prediction tensors differing only in the masked-out
second row give the same class-weighted loss. -/
theorem c9_maskedNLL_witness :
    maskedNLLLoss (some [2]) [[1, 2], [5]] [0, 0] [1, 0] =
      maskedNLLLoss (some [2]) [[1, 2], [7]] [0, 0] [1, 0] :=
  c9_maskedNLL_mask_invariant (some [2]) [[1, 2], [5]] [[1, 2], [7]] [0, 0]
    [1, 0] rfl (by decide)
    (by
      intro i hi
      match i with
      | 0 => rfl
      | 1 => norm_num at hi
      | (n + 2) => simp at hi)

/-! ## Dialogue step cell: frame conditions -/

theorem cellCommon_q_frame (P : CellParams) (U : List Vec)
    (qmask : List (List ℚ)) (g_hist : List (List Vec)) (q0 : List (List Vec))
    (e0sel : List Vec) (b p : ℕ) (hb : b < qmask.length) (hbU : b < U.length)
    (hp : p < P.party) (hm : gQ qmask b p = 0)
    (hdrop : ∀ v, (P.drop v).length = v.length)
    (hpc : ∀ x h, (P.pCell x h).length = P.D_p)
    (hq0 : (gV (initState qmask.length P.party P.D_p q0) b p).length = P.D_p) :
    gV (cellCommon P U qmask g_hist q0 e0sel).2.1 b p =
      gV (initState qmask.length P.party P.D_p q0) b p := by
  simp only [cellCommon, gV, gQ] at *
  rw [range_map_getD _ _ _ _ hb, range_map_getD _ _ _ _ hp]
  rw [hm]
  apply combV_zero
  rw [hq0, range_map_getD _ _ _ _ hbU, range_map_getD _ _ _ _ hp, hdrop, hpc]

theorem cellParty_e_frame (P : CellParams) (U : List Vec)
    (qmask : List (List ℚ)) (g_hist : List (List Vec)) (q0 : List (List Vec))
    (q_hist : List (List (List Vec))) (e0 : List (List Vec)) (b p : ℕ)
    (hb : b < qmask.length) (hbU : b < U.length) (hp : p < P.party)
    (hm : gQ qmask b p = 0)
    (hdrop : ∀ v, (P.drop v).length = v.length)
    (hec : ∀ x h, (P.eCell x h).length = P.D_e)
    (he0 : (gV (initState qmask.length P.party P.D_e e0) b p).length = P.D_e) :
    gV (cellParty P U qmask g_hist q0 q_hist e0).e b p =
      gV (initState qmask.length P.party P.D_e e0) b p := by
  simp only [cellParty, gV, gQ] at *
  rw [range_map_getD _ _ _ _ hb, range_map_getD _ _ _ _ hp, hm]
  apply combV_zero
  rw [he0, range_map_getD _ _ _ _ hbU, range_map_getD _ _ _ _ hp, hdrop, hec]

/-- C2: for a timestep of the step cell with a valid one-hot speaker mask,
the party-state row of every non-active speaker `p` (in both emotion modes)
and, in party-attention mode, the emotion-state row of every non-active
speaker, are unchanged by the step — they equal the corresponding row of
the (zero-initialized on the first step) incoming state. -/
theorem c2_nonactive_rows_unchanged (P : CellParams) (U : List Vec)
    (qmask : List (List ℚ)) (g_hist : List (List Vec)) (q0 : List (List Vec))
    (q_hist : List (List (List Vec))) (e0 : List (List Vec)) (e0n : List Vec)
    (b p : ℕ) (hb : b < qmask.length) (hbU : b < U.length) (hp : p < P.party)
    (hrow : (qmask.getD b []).length = P.party)
    (hoh : isOneHot (qmask.getD b []))
    (hnact : p ≠ argmaxIdx (qmask.getD b []))
    (hdrop : ∀ v, (P.drop v).length = v.length)
    (hpc : ∀ x h, (P.pCell x h).length = P.D_p)
    (hec : ∀ x h, (P.eCell x h).length = P.D_e)
    (hq0 : (gV (initState qmask.length P.party P.D_p q0) b p).length = P.D_p)
    (he0 : (gV (initState qmask.length P.party P.D_e e0) b p).length = P.D_e) :
    gV (cellParty P U qmask g_hist q0 q_hist e0).q b p =
      gV (initState qmask.length P.party P.D_p q0) b p ∧
    gV (cellParty P U qmask g_hist q0 q_hist e0).e b p =
      gV (initState qmask.length P.party P.D_e e0) b p ∧
    gV (cellNoParty P U qmask g_hist q0 q_hist e0n).q b p =
      gV (initState qmask.length P.party P.D_p q0) b p := by
  have hm : gQ qmask b p = 0 := by
    obtain ⟨j, hj, h1, h0⟩ := hoh
    have hja : argmaxIdx (qmask.getD b []) = j := argmaxIdx_of_oneHot _ j hj h1 h0
    exact h0 p (by rw [hrow]; exact hp) (by rw [hja] at hnact; exact hnact)
  refine ⟨?_, cellParty_e_frame P U qmask g_hist q0 q_hist e0 b p hb hbU hp hm
    hdrop hec he0, ?_⟩
  · exact cellCommon_q_frame P U qmask g_hist q0 _ b p hb hbU hp hm hdrop hpc hq0
  · exact cellCommon_q_frame P U qmask g_hist q0 _ b p hb hbU hp hm hdrop hpc hq0

/-- C2 (witness): concrete step of `cellParamsB` (two parties, speaker 0
active): the rows of the non-active speaker 1 keep their
(zero-initialized) values. -/
theorem c2_nonactive_rows_witness :
    gV (cellParty cellParamsB [[5]] [[1, 0]] [] [] [] []).q 0 1 =
      gV (initState 1 2 1 []) 0 1 ∧
    gV (cellParty cellParamsB [[5]] [[1, 0]] [] [] [] []).e 0 1 =
      gV (initState 1 2 1 []) 0 1 ∧
    gV (cellNoParty cellParamsB [[5]] [[1, 0]] [] [] [] []).q 0 1 =
      gV (initState 1 2 1 []) 0 1 := by
  have hja : argmaxIdx [(1 : ℚ), 0] = 0 :=
    argmaxIdx_of_oneHot _ 0 (by decide) (by decide) (by decide)
  exact c2_nonactive_rows_unchanged cellParamsB [[5]] [[1, 0]] [] [] [] [] []
    0 1 (by decide) (by decide) (by decide) (by decide)
    ⟨0, by decide, by decide, by decide⟩
    (by show (1 : ℕ) ≠ argmaxIdx [(1 : ℚ), 0]; rw [hja]; decide)
    (fun v => rfl) (fun x h => rfl) (fun x h => rfl) (by decide) (by decide)

/-! ## Attention weights are produced on every step -/

theorem cellCommon_alpha_some (P : CellParams) (U : List Vec)
    (qmask : List (List ℚ)) (g_hist : List (List Vec)) (q0 : List (List Vec))
    (e0sel : List Vec)
    (hw : ∀ M x, ((P.attnRow M x).2).length = M.length)
    (b : ℕ) (hb : b < U.length) :
    ∃ w, (cellCommon P U qmask g_hist q0 e0sel).2.2.2.1 = some w ∧
      (w.getD b []).length = g_hist.length + 1 := by
  simp only [cellCommon, List.length_append, List.length_cons, List.length_nil]
  norm_num
  rw [List.getElem?_range hb]
  simp only [Option.map_some', Option.getD_some, Function.comp_apply]
  rw [hw]
  simp

/-- C3 (amended): the step cell returns attention weights on *every* step —
including the very first, when the incoming context history is empty —
because the history is queried only after the new context row has been
appended; the weights cover the full history including the just-appended
entry (one weight per history entry, hence `g_hist.length + 1` of them).
The `alpha = None` arm of the source (line 161) is unreachable. -/
theorem c3_alpha_on_every_step (P : CellParams) (U : List Vec)
    (qmask : List (List ℚ)) (g_hist : List (List Vec)) (q0 : List (List Vec))
    (q_hist : List (List (List Vec))) (e0p : List (List Vec)) (e0n : List Vec)
    (hw : ∀ M x, ((P.attnRow M x).2).length = M.length)
    (b : ℕ) (hb : b < U.length) :
    (∃ w, (cellParty P U qmask g_hist q0 q_hist e0p).alpha = some w ∧
      (w.getD b []).length = g_hist.length + 1) ∧
    (∃ w, (cellNoParty P U qmask g_hist q0 q_hist e0n).alpha = some w ∧
      (w.getD b []).length = g_hist.length + 1) :=
  ⟨cellCommon_alpha_some P U qmask g_hist q0 _ hw b hb,
   cellCommon_alpha_some P U qmask g_hist q0 _ hw b hb⟩

/-- C3 (witness): the amended theorem at a concrete first step (empty
history): the returned weights cover the singleton history. -/
theorem c3_alpha_witness :
    (∃ w, (cellParty cellParamsB [[5]] [[1, 0]] [] [] [] []).alpha = some w ∧
      (w.getD 0 []).length = 1) ∧
    (∃ w, (cellNoParty cellParamsB [[5]] [[1, 0]] [] [] [] []).alpha = some w ∧
      (w.getD 0 []).length = 1) :=
  c3_alpha_on_every_step cellParamsB [[5]] [[1, 0]] [] [] [] [] []
    (fun M _ => by simp [cellParamsB]) 0 (by decide)

/-- C3 (counterexample): the claim says the cell returns *no* attention
weights on the very first step (empty context history); on the source the
weights output of that step is not `None`. -/
theorem c3_counterexample :
    (cellNoParty cellParamsA [[5]] [[1]] [] [] [] []).alpha ≠ none := by
  simp only [cellNoParty, cellCommon, List.length_append, List.length_cons,
    List.length_nil]
  norm_num
  exact Option.some_ne_none _

/-! ## The two stacked runner outputs are equal (C10) -/

theorem runnerParty_e_eq_c (P : CellParams) :
    ∀ (l : List (List Vec × List (List ℚ))) (q0 e0 : List (List Vec)),
      (runnerParty P l q0 e0).1 = (runnerParty P l q0 e0).2.1 := by
  intro l
  induction l with
  | nil => intro q0 e0; rfl
  | cons pr rest ih =>
    intro q0 e0
    obtain ⟨u, qm⟩ := pr
    simp only [runnerParty]
    rw [ih]
    rfl

theorem runnerNoParty_e_eq_c (P : CellParams) :
    ∀ (l : List (List Vec × List (List ℚ))) (q0 : List (List Vec)) (e0 : List Vec),
      (runnerNoParty P l q0 e0).1 = (runnerNoParty P l q0 e0).2.1 := by
  intro l
  induction l with
  | nil => intro q0 e0; rfl
  | cons pr rest ih =>
    intro q0 e0
    obtain ⟨u, qm⟩ := pr
    simp only [runnerNoParty]
    rw [ih]
    rfl

/-- C10: in both emotion modes the two stacked tensors returned by
`DialogueRNN.forward` are elementwise equal — the per-timestep entry of the
second (`c`) output is the detached copy (`e_out`, value-level identical)
of exactly the active-speaker emotion value collected into the first
(`e`) output. -/
theorem c10_runner_outputs_equal (pa : Option String) (P : CellParams)
    (U : List (List Vec)) (qmask : List (List (List ℚ))) :
    (dialogueRNN pa P U qmask).1 = (dialogueRNN pa P U qmask).2.1 := by
  cases pa with
  | none => exact runnerNoParty_e_eq_c P (U.zip qmask) [] []
  | some s => exact runnerParty_e_eq_c P (U.zip qmask) [] []

/-! ## Shape lemmas for the emotion outputs (C1) -/

theorem initState_entry_length (batch party d : ℕ) (s : List (List Vec))
    (b p : ℕ) (hb : b < batch) (hp : p < party)
    (hs : s = [] ∨ (s.length = batch ∧ ∀ r ∈ s, r.length = party ∧
      ∀ v ∈ r, v.length = d)) :
    (gV (initState batch party d s) b p).length = d := by
  rcases hs with rfl | ⟨hl, hr⟩
  · show (gV (zeros3 batch party d) b p).length = d
    unfold zeros3 gV
    rw [range_map_getD _ _ _ _ hb, range_map_getD _ _ _ _ hp]
    simp [zeroV]
  · unfold initState
    rw [if_neg (by omega)]
    unfold gV
    have hbs : b < s.length := by omega
    have hrow := hr (s.getD b []) (getD_mem_of_lt _ _ _ hbs)
    have hps : p < (s.getD b []).length := by
      rw [hrow.1]
      exact hp
    exact hrow.2 _ (getD_mem_of_lt _ _ _ hps)

theorem cellParty_e_shape (P : CellParams) (u : List Vec) (qm : List (List ℚ))
    (gh : List (List Vec)) (q0 : List (List Vec)) (qh : List (List (List Vec)))
    (e0 : List (List Vec))
    (hec : ∀ x h, (P.eCell x h).length = P.D_e)
    (hdrop : ∀ v, (P.drop v).length = v.length)
    (hu : u.length = qm.length)
    (he0 : e0 = [] ∨ (e0.length = qm.length ∧ ∀ r ∈ e0, r.length = P.party ∧
      ∀ v ∈ r, v.length = P.D_e)) :
    (cellParty P u qm gh q0 qh e0).e.length = qm.length ∧
    ∀ row ∈ (cellParty P u qm gh q0 qh e0).e, row.length = P.party ∧
      ∀ v ∈ row, v.length = P.D_e := by
  constructor
  · simp [cellParty]
  · intro row hrow
    simp only [cellParty] at hrow
    obtain ⟨b, hbmem, rfl⟩ := List.mem_map.1 hrow
    have hb : b < qm.length := List.mem_range.1 hbmem
    have hbu : b < u.length := by omega
    refine ⟨by simp, ?_⟩
    intro v hv
    obtain ⟨p, hpmem, rfl⟩ := List.mem_map.1 hv
    have hp : p < P.party := List.mem_range.1 hpmem
    rw [combV_length]
    have h1 := initState_entry_length qm.length P.party P.D_e e0 b p hb hp he0
    simp only [gV] at h1 ⊢
    rw [h1, range_map_getD _ _ _ _ hbu, range_map_getD _ _ _ _ hp, hdrop, hec]
    simp

theorem cellParty_eout_eq (P : CellParams) (u : List Vec) (qm : List (List ℚ))
    (gh : List (List Vec)) (q0 : List (List Vec)) (qh : List (List (List Vec)))
    (e0 : List (List Vec)) :
    (cellParty P u qm gh q0 qh e0).eout =
      selectParties (cellParty P u qm gh q0 qh e0).e (qm.map argmaxIdx) := rfl

theorem runnerParty_c_width (P : CellParams) (batch : ℕ)
    (hec : ∀ x h, (P.eCell x h).length = P.D_e)
    (hdrop : ∀ v, (P.drop v).length = v.length)
    (hparty : 1 ≤ P.party) :
    ∀ (l : List (List Vec × List (List ℚ))) (q0 e0 : List (List Vec)),
      (∀ pr ∈ l, pr.1.length = batch ∧ pr.2.length = batch ∧
        ∀ row ∈ pr.2, row.length = P.party) →
      (e0 = [] ∨ (e0.length = batch ∧ ∀ r ∈ e0, r.length = P.party ∧
        ∀ v ∈ r, v.length = P.D_e)) →
      ∀ step ∈ (runnerParty P l q0 e0).2.1, ∀ v ∈ step, v.length = P.D_e := by
  intro l
  induction l with
  | nil =>
    intro q0 e0 _ _ step hstep
    simp [runnerParty] at hstep
  | cons pr rest ih =>
    intro q0 e0 hl he0 step hstep
    obtain ⟨u, qm⟩ := pr
    have hu := hl (u, qm) (List.mem_cons_self _ _)
    have hA : u.length = batch := hu.1
    have hB : qm.length = batch := hu.2.1
    have hC : ∀ row ∈ qm, row.length = P.party := hu.2.2
    have hu1 : u.length = qm.length := by omega
    have he0b : e0 = [] ∨ (e0.length = qm.length ∧ ∀ r ∈ e0, r.length = P.party ∧
        ∀ v ∈ r, v.length = P.D_e) := by
      rcases he0 with h | ⟨h1, h2⟩
      · exact Or.inl h
      · exact Or.inr ⟨by omega, h2⟩
    have hshape := cellParty_e_shape P u qm [] q0 [] e0 hec hdrop hu1 he0b
    simp only [runnerParty] at hstep
    rcases List.mem_cons.1 hstep with rfl | hstep2
    · intro v hv
      rw [cellParty_eout_eq] at hv
      unfold selectParties at hv
      obtain ⟨idx, hidx, row, hrow, rfl⟩ := mem_zipWith_elim _ _ _ _ hv
      obtain ⟨qrow, hqrow, rfl⟩ := List.mem_map.1 hidx
      have hql : qrow.length = P.party := hC qrow hqrow
      have hqne : qrow ≠ [] := by
        intro hcon
        rw [hcon] at hql
        simp at hql
        omega
      have hlt : argmaxIdx qrow < P.party := by
        rw [← hql]
        exact argmaxIdx_lt qrow hqne
      have hrowf := (hshape.2 row hrow)
      have hlt2 : argmaxIdx qrow < row.length := by
        rw [hrowf.1]
        exact hlt
      exact hrowf.2 _ (getD_mem_of_lt _ _ _ hlt2)
    · refine ih (cellParty P u qm [] q0 [] e0).q (cellParty P u qm [] q0 [] e0).e
        (fun pr2 h2 => hl pr2 (List.mem_cons_of_mem _ h2)) ?_ step hstep2
      refine Or.inr ⟨?_, hshape.2⟩
      rw [hshape.1]
      exact hB

theorem runnerNoParty_c_width (P : CellParams)
    (hec : ∀ x h, (P.eCell x h).length = P.D_e)
    (hdrop : ∀ v, (P.drop v).length = v.length) :
    ∀ (l : List (List Vec × List (List ℚ))) (q0 : List (List Vec)) (e0 : List Vec),
      ∀ step ∈ (runnerNoParty P l q0 e0).2.1, ∀ v ∈ step, v.length = P.D_e := by
  intro l
  induction l with
  | nil =>
    intro q0 e0 step hstep
    simp [runnerNoParty] at hstep
  | cons pr rest ih =>
    intro q0 e0 step hstep
    obtain ⟨u, qm⟩ := pr
    simp only [runnerNoParty] at hstep
    rcases List.mem_cons.1 hstep with rfl | hstep2
    · intro v hv
      have hv2 : v ∈ (cellNoParty P u qm [] q0 [] e0).e := hv
      simp only [cellNoParty] at hv2
      obtain ⟨b, _, rfl⟩ := List.mem_map.1 hv2
      rw [hdrop, hec]
    · exact ih (cellNoParty P u qm [] q0 [] e0).q (cellNoParty P u qm [] q0 [] e0).e
        step hstep2

theorem runnerParty_c_length (P : CellParams) :
    ∀ (l : List (List Vec × List (List ℚ))) (q0 e0 : List (List Vec)),
      (runnerParty P l q0 e0).2.1.length = l.length := by
  intro l
  induction l with
  | nil => intro q0 e0; rfl
  | cons pr rest ih =>
    intro q0 e0
    obtain ⟨u, qm⟩ := pr
    simp only [runnerParty, List.length_cons]
    rw [ih]

theorem runnerNoParty_c_length (P : CellParams) :
    ∀ (l : List (List Vec × List (List ℚ))) (q0 : List (List Vec)) (e0 : List Vec),
      (runnerNoParty P l q0 e0).2.1.length = l.length := by
  intro l
  induction l with
  | nil => intro q0 e0; rfl
  | cons pr rest ih =>
    intro q0 e0
    obtain ⟨u, qm⟩ := pr
    simp only [runnerNoParty, List.length_cons]
    rw [ih]

theorem dialogueRNN_c_width (pa : Option String) (P : CellParams) (batch : ℕ)
    (U : List (List Vec)) (qmask : List (List (List ℚ)))
    (hec : ∀ x h, (P.eCell x h).length = P.D_e)
    (hdrop : ∀ v, (P.drop v).length = v.length)
    (hparty : 1 ≤ P.party)
    (hshape : ∀ pr ∈ U.zip qmask, pr.1.length = batch ∧ pr.2.length = batch ∧
      ∀ row ∈ pr.2, row.length = P.party) :
    (dialogueRNN pa P U qmask).2.1.length = (U.zip qmask).length ∧
    ∀ step ∈ (dialogueRNN pa P U qmask).2.1, ∀ v ∈ step, v.length = P.D_e := by
  cases pa with
  | none =>
    exact ⟨runnerNoParty_c_length P (U.zip qmask) [] [],
      runnerNoParty_c_width P hec hdrop (U.zip qmask) [] []⟩
  | some s =>
    exact ⟨runnerParty_c_length P (U.zip qmask) [] [],
      runnerParty_c_width P batch hec hdrop hparty (U.zip qmask) [] [] hshape
        (Or.inl rfl)⟩

theorem reverseSeq_row_length {α : Type} (d : α) (X : List (List α))
    (mask : List (List ℚ)) (r : List α) (hr : r ∈ reverseSeq d X mask) :
    r.length = min (X.headD []).length mask.length := by
  unfold reverseSeq padSequence at hr
  obtain ⟨t, _, rfl⟩ := List.mem_map.1 hr
  simp [List.length_zipWith, transposeL]

theorem reverseSeq_entry_cases {α : Type} (d : α) (X : List (List α))
    (mask : List (List ℚ)) (r : List α) (hr : r ∈ reverseSeq d X mask) :
    ∀ x ∈ r, x = d ∨ ∃ row ∈ X, x ∈ row := by
  unfold reverseSeq padSequence at hr
  obtain ⟨t, _, rfl⟩ := List.mem_map.1 hr
  intro x hx
  obtain ⟨r2, hr2, rfl⟩ := List.mem_map.1 hx
  obtain ⟨xb, hxb, c, _, rfl⟩ := mem_zipWith_elim _ _ _ _ hr2
  rcases Nat.lt_or_ge t ((xb.take c).reverse).length with hlt | hge
  · have hmem : ((xb.take c).reverse).getD t d ∈ (xb.take c).reverse :=
      getD_mem_of_lt _ _ _ hlt
    have hmem2 := List.mem_of_mem_take (List.mem_reverse.1 hmem)
    unfold transposeL at hxb
    obtain ⟨b2, _, rfl⟩ := List.mem_map.1 hxb
    obtain ⟨row, hrow, hy⟩ := List.mem_map.1 hmem2
    rcases Nat.lt_or_ge b2 row.length with h2 | h2
    · right
      refine ⟨row, hrow, ?_⟩
      rw [← hy]
      exact getD_mem_of_lt _ _ _ h2
    · left
      rw [← hy, getD_of_le _ _ _ h2]
  · left
    exact getD_of_le _ _ _ hge

/-- C1 (counterexample): the claim says the second stacked tensor returned
by `DialogueRNN.forward` has feature width `D_g`; on a configuration with
`D_g = 1` and `D_e = 2` the entries of that tensor have width 2 (they are
the detached emotion outputs), not `D_g`. -/
theorem c1_counterexample :
    ((((dialogueRNN none cellParamsA [[[5]]] [[[1]]]).2.1).getD 0 []).getD 0
      []).length = 2 ∧ cellParamsA.D_g = 1 := by
  constructor
  · rfl
  · rfl

/-- C1 (amended): the second tensor returned by `DialogueRNN.forward` has
one entry per timestep and feature width `D_e`, not `D_g` — it is the stack
of the per-step detached active-speaker emotion outputs; accordingly the
second output of `Model.forward` is the concatenation of the forward and
backward runners' second outputs, of width `2 * D_e`. -/
theorem c1_second_output_widths :
    (∀ (pa : Option String) (P : CellParams) (batch : ℕ) (U : List (List Vec))
        (qmask : List (List (List ℚ))),
      (∀ x h, (P.eCell x h).length = P.D_e) →
      (∀ v, (P.drop v).length = v.length) →
      1 ≤ P.party →
      (∀ pr ∈ U.zip qmask, pr.1.length = batch ∧ pr.2.length = batch ∧
        ∀ row ∈ pr.2, row.length = P.party) →
      (dialogueRNN pa P U qmask).2.1.length = (U.zip qmask).length ∧
      ∀ step ∈ (dialogueRNN pa P U qmask).2.1, ∀ v ∈ step,
        v.length = P.D_e) ∧
    (∀ (P : ModelParams) (batch : ℕ) (U : List (List Vec))
        (qmask : List (List (List ℚ))) (umask : List (List ℚ)) (att2 : Bool),
      (∀ x h, (P.cpf.eCell x h).length = P.cpf.D_e) →
      (∀ v, (P.cpf.drop v).length = v.length) →
      1 ≤ P.cpf.party →
      (∀ x h, (P.cpb.eCell x h).length = P.cpb.D_e) →
      (∀ v, (P.cpb.drop v).length = v.length) →
      P.cpb.party = P.cpf.party →
      P.cpb.D_e = P.cpf.D_e →
      (∀ u ∈ U, u.length = batch) →
      (∀ qm ∈ qmask, qm.length = batch ∧ ∀ row ∈ qm,
        row.length = P.cpf.party) →
      umask.length = batch →
      ∀ step ∈ (modelForward P U qmask umask att2).2, ∀ v ∈ step,
        v.length = 2 * P.cpf.D_e) := by
  constructor
  · intro pa P batch U qmask hec hdrop hparty hshape
    exact dialogueRNN_c_width pa P batch U qmask hec hdrop hparty hshape
  · intro P batch U qmask umask att2 hecf hdropf hpartyf hecb hdropb hpeq hdeq
      hU hQ hum step hstep v hv
    simp only [modelForward] at hstep
    obtain ⟨cfT, hcfT, cbT, hcbT, rfl⟩ := mem_zipWith_elim _ _ _ _ hstep
    obtain ⟨v1, hv1, v2, hv2, rfl⟩ := mem_zipWith_elim _ _ _ _ hv
    have hw1 : v1.length = P.cpf.D_e := by
      refine (dialogueRNN_c_width P.pa P.cpf batch U qmask hecf hdropf hpartyf
        ?_).2 cfT hcfT v1 hv1
      intro pr hpr
      have hmem := List.of_mem_zip hpr
      exact ⟨hU pr.1 hmem.1, (hQ pr.2 hmem.2).1, (hQ pr.2 hmem.2).2⟩
    have hw2 : v2.length = P.cpb.D_e := by
      refine (dialogueRNN_c_width P.pa P.cpb batch
        (reverseSeq (zeroV P.cpf.D_m) U umask)
        (reverseSeq (zeroV P.cpf.party) qmask umask) hecb hdropb
        (by rw [hpeq]; exact hpartyf) ?_).2 cbT hcbT v2 hv2
      intro pr hpr
      have hmem := List.of_mem_zip hpr
      have hrl1 := reverseSeq_row_length (zeroV P.cpf.D_m) U umask pr.1 hmem.1
      have hrl2 := reverseSeq_row_length (zeroV P.cpf.party) qmask umask pr.2
        hmem.2
      have hUhead : (U.headD []).length = batch := by
        cases U with
        | nil =>
          exfalso
          have : reverseSeq (zeroV P.cpf.D_m) ([] : List (List Vec)) umask = [] := by
            unfold reverseSeq padSequence transposeL maxLen
            simp
          rw [this] at hmem
          exact absurd hmem.1 (List.not_mem_nil _)
        | cons u0 rest => exact hU u0 (List.mem_cons_self _ _)
      have hQhead : (qmask.headD []).length = batch := by
        cases qmask with
        | nil =>
          exfalso
          have : reverseSeq (zeroV P.cpf.party) ([] : List (List (List ℚ)))
              umask = [] := by
            unfold reverseSeq padSequence transposeL maxLen
            simp
          rw [this] at hmem
          exact absurd hmem.2 (List.not_mem_nil _)
        | cons q0 rest => exact (hQ q0 (List.mem_cons_self _ _)).1
      refine ⟨by rw [hrl1, hUhead, hum]; omega, by rw [hrl2, hQhead, hum]; omega,
        ?_⟩
      intro row hrow
      rcases reverseSeq_entry_cases (zeroV P.cpf.party) qmask umask pr.2 hmem.2
        row hrow with h | ⟨qm, hqm, hrowqm⟩
      · rw [h, hpeq]
        simp [zeroV]
      · rw [hpeq]
        exact (hQ qm hqm).2 row hrowqm
    rw [List.length_append, hw1, hw2, hdeq]
    omega

/-- C1 (witness): the amended width theorem at a concrete non-party run
(`D_e = 2`) and at a concrete two-step `Model` run (`D_e = 1`). -/
theorem c1_second_output_widths_witness :
    ((dialogueRNN none cellParamsA [[[5]]] [[[1]]]).2.1.length =
        (([[[5]]] : List (List Vec)).zip [[[1]]]).length ∧
      ∀ step ∈ (dialogueRNN none cellParamsA [[[5]]] [[[1]]]).2.1,
        ∀ v ∈ step, v.length = cellParamsA.D_e) ∧
    (∀ step ∈ (modelForward modelParamsExample [[[5]], [[6]]]
        [[[1, 0]], [[1, 0]]] [[1, 1]] false).2, ∀ v ∈ step,
      v.length = 2 * modelParamsExample.cpf.D_e) :=
  ⟨c1_second_output_widths.1 none cellParamsA 1 [[[5]]] [[[1]]]
      (fun _ _ => rfl) (fun _ => rfl) (by decide) (by decide),
   c1_second_output_widths.2 modelParamsExample 1 [[[5]], [[6]]]
      [[[1, 0]], [[1, 0]]] [[1, 1]] false (fun _ _ => rfl) (fun _ => rfl)
      (by decide) (fun _ _ => rfl) (fun _ => rfl) rfl rfl (by decide)
      (by decide) rfl⟩

/-! ## The att2 self-attention pass (C5) -/

/-- C5 (amended): the extra self-attention pass of `Model.forward` is taken
exactly when `att2` is set *and* `party_attention == "simple"`: with
`party_attention = "simple"` the att2 run agrees with the spec's
description, and with any other `party_attention` value the `att2` flag has
no effect — the raw concatenated vectors feed the classification head. -/
theorem c5_att2_condition (P : ModelParams) (U : List (List Vec))
    (qmask : List (List (List ℚ))) (umask : List (List ℚ)) :
    (P.pa = some "simple" →
      modelForward P U qmask umask true =
        modelForwardSpecAtt2 P U qmask umask true) ∧
    (P.pa ≠ some "simple" → ∀ att2,
      modelForward P U qmask umask att2 =
        modelForward P U qmask umask false) := by
  constructor
  · intro h
    simp [modelForward, modelForwardSpecAtt2, h]
  · intro h att2
    cases att2 with
    | false => rfl
    | true => simp [modelForward, h]

/-- C5 (witness): both arms of the amended condition theorem at concrete
configurations (the example model, and the example model with
`party_attention = "simple"`). -/
theorem c5_att2_condition_witness :
    modelForward { modelParamsExample with pa := some "simple" }
        [[[1]]] [[[1, 0]]] [[1]] true =
      modelForwardSpecAtt2 { modelParamsExample with pa := some "simple" }
        [[[1]]] [[[1, 0]]] [[1]] true ∧
    modelForward modelParamsExample [[[1]]] [[[1, 0]]] [[1]] true =
      modelForward modelParamsExample [[[1]]] [[[1, 0]]] [[1]] false :=
  ⟨(c5_att2_condition { modelParamsExample with pa := some "simple" }
      [[[1]]] [[[1, 0]]] [[1]]).1 rfl,
   (c5_att2_condition modelParamsExample [[[1]]] [[[1, 0]]] [[1]]).2
      (by simp [modelParamsExample]) true⟩

set_option maxHeartbeats 2000000 in
/-- C5 (counterexample): with `party_attention = 'general'` and `att2` set,
the source model does *not* apply the extra attention pass (its branch also
requires `party_attention == "simple"`): on a concrete two-step run its
output differs from the spec-described model that applies the pass whenever
`att2` is set. -/
theorem c5_counterexample :
    modelForward modelParamsExample [[[1]], [[2]]] [[[1, 0]], [[1, 0]]]
        [[1, 1]] true ≠
      modelForwardSpecAtt2 modelParamsExample [[[1]], [[2]]]
        [[[1, 0]], [[1, 0]]] [[1, 1]] true := by
  intro h
  have hmc : maskCount [1, 1] = 2 := by
    norm_num [maskCount, Rat.floor_def']
    decide
  have hstr : ¬ (some "general" = some ("simple" : String)) := by simp
  have hs1 : ¬ (("general2" : String) = "dot") := by simp
  have hs2 : ¬ (("general2" : String) = "general") := by simp
  have h1 : (modelForward modelParamsExample [[[1]], [[2]]]
      [[[1, 0]], [[1, 0]]] [[1, 1]] true).1 =
      [[[1 - (0 : ℚ), 1 - (0 : ℚ)]], [[2 - (0 : ℚ), 2 - (0 : ℚ)]]] := by
    norm_num [modelForward, modelHead, dialogueRNN, runnerParty,
      cellParty, cellCommon, selectParties, initState, zeros3, zeroV,
      argmaxIdx, combV, gQ, gV, reverseSeq, transposeL, padSequence, maxLen,
      hmc, hstr, logSoftmax, reluV, modelParamsExample, cellParamsB,
      List.range_succ]
  have h2 : (modelForwardSpecAtt2 modelParamsExample [[[1]], [[2]]]
      [[[1, 0]], [[1, 0]]] [[1, 1]] true).1 =
      [[[3 / 2 - (0 : ℚ), 3 / 2 - (0 : ℚ)]],
       [[3 / 2 - (0 : ℚ), 3 / 2 - (0 : ℚ)]]] := by
    norm_num [modelForwardSpecAtt2, modelHead, modelAttPass, modelMatchAtt,
      maForward, maForwardRow, softmax, poolV, sumVecs, dotQ, dialogueRNN,
      runnerParty, cellParty, cellCommon, selectParties, initState, zeros3,
      zeroV, argmaxIdx, combV, gQ, gV, reverseSeq, transposeL, padSequence,
      maxLen, hmc, hs1, hs2, logSoftmax, reluV, modelParamsExample,
      cellParamsB, List.range_succ, List.replicate_succ]
  have h0 := congrArg Prod.fst h
  rw [h1, h2] at h0
  norm_num at h0
